import Mathlib

/-!
Shallow embedding of the wlog URI generator of httperf
(src/gen/uri_wlog.c): the escape decoder unescape_local, and the
produce-next handler set_uri that iterates over the NUL-separated record
list with wraparound, optionally splitting an embedded header block off
each record at the 0x01 sentinel.

Bytes are modelled as natural numbers (values below 256 in any real
buffer); C byte buffers are lists of naturals.
-/

set_option linter.unusedVariables false

/-- Value of a base-8 digit run the way strtol accumulates it
(digit characters are 48..55). -/
def octVal (ds : List Nat) : Nat := ds.foldl (fun a d => a * 8 + (d - 48)) 0

/-- LONG_MAX of the 64-bit targets httperf is built for; strtol saturates
at this value on overflow. -/
def LONG_MAX : Nat := 2 ^ 63 - 1

/-- Octal digit character test, as strtol base 8 accepts digits. -/
def isOctDigit (b : Nat) : Bool := decide (48 ≤ b ∧ b ≤ 55)

/-- Embedding of unescape_local (uri_wlog.c lines 103-151). The argument
is the byte tape starting at the str argument: the bytes of the C string,
its terminating NUL, and whatever bytes happen to follow in memory (the
loop can run past the terminator when the string ends in a backslash, so
those bytes are observable). Returns the produced bytes together with the
number of diagnostics written to stderr. The octal case follows strtol
base 8: the maximal run of octal digits starting at the current one is
consumed and its value, saturated at LONG_MAX, is stored, truncated to a
byte by the char assignment; when the digit after the backslash is 56 or
57 strtol consumes nothing and yields 0, and the digit is then reprocessed
as an ordinary input character. An empty tape means the loop would read
unmapped memory; that case is given an arbitrary stopping value here and
is never relied upon. -/
def unescape_local : List Nat → List Nat × Nat
  | [] => ([], 0)
  | c :: tl =>
    if c = 0 then ([], 0)
    else if c = 92 then
      match tl with
      | [] => ([0], 1)
      | d :: tl2 =>
        if d = 92 then (92 :: (unescape_local tl2).1, (unescape_local tl2).2)
        else if d = 97 then (10 :: (unescape_local tl2).1, (unescape_local tl2).2)
        else if d = 114 then (13 :: (unescape_local tl2).1, (unescape_local tl2).2)
        else if d = 110 then
          (13 :: 10 :: (unescape_local tl2).1, (unescape_local tl2).2)
        else if 48 ≤ d ∧ d ≤ 57 then
          if 48 ≤ d ∧ d ≤ 55 then
            (min (octVal (d :: tl2.takeWhile isOctDigit)) LONG_MAX % 256 ::
               (unescape_local (tl2.drop (tl2.takeWhile isOctDigit).length)).1,
             (unescape_local (tl2.drop (tl2.takeWhile isOctDigit).length)).2)
          else
            (0 :: (unescape_local (d :: tl2)).1, (unescape_local (d :: tl2)).2)
        else
          (d :: (unescape_local tl2).1, (unescape_local tl2).2 + 1)
    else (c :: (unescape_local tl).1, (unescape_local tl).2)
termination_by l => l.length
decreasing_by
  all_goals simp [List.length_drop]
  all_goals omega

/-- The record starting at cursor p: the bytes up to the first NUL, as
strlen delimits them (uri_wlog.c line 181). A file whose last byte is not
NUL is still terminated in effect, because mmap zero-fills the rest of the
final page, so the scan also stops at the buffer end. -/
def recordAt (buf : List Nat) (p : Nat) : List Nat :=
  (buf.drop p).takeWhile (fun b => decide (b ≠ 0))

/-- Embedding of the embedded-http-headers split inside set_uri
(uri_wlog.c lines 191-238): memchr locates the first 0x01 sentinel in the
record; the bytes before it form the raw header block and the bytes after
it form the target, whose length is the record length minus the header
length minus one. Without the option, or without a sentinel, the whole
record is the target and there is no header block. -/
def splitRecord (emb : Bool) (record : List Nat) : Option (List Nat) × List Nat :=
  if emb = true ∧ (1 : Nat) ∈ record then
    (some (record.takeWhile (fun b => decide (b ≠ 1))),
     record.drop ((record.takeWhile (fun b => decide (b ≠ 1))).length + 1))
  else (none, record)

/-- Outcome of running the do-while of set_uri forward from one cursor up
to the buffer end, without wrapping: either a record with a non-empty
target was reached, or the cursor ran off the end. Both carry every
call_set_uri argument and every decoded header block appended so far, in
order; found also carries the final target and the new cursor. -/
inductive ScanResult where
  | found : List (List Nat) → List (List Nat) → List Nat → Nat → ScanResult
  | ended : List (List Nat) → List (List Nat) → ScanResult

/-- Effect of the call_append_request_header branch: the raw header block
is copied into a NUL-terminated buffer and unescaped before being handed
to the call object (uri_wlog.c lines 208-233). -/
def pushHeader (hs : List (List Nat)) : Option (List Nat) → List (List Nat)
  | none => hs
  | some raw => hs ++ [(unescape_local (raw ++ [0])).1]

/-- One pass of the set_uri do-while from cursor p towards the buffer end
(uri_wlog.c lines 163-243, everything except the wrap branch): read the
record at the cursor, split it, append its decoded header block if any,
record the call_set_uri argument, advance the cursor past the record and
its terminator, and repeat while the target length is zero. -/
def scanFrom (emb : Bool) (buf : List Nat) (su hs : List (List Nat)) (p : Nat) :
    ScanResult :=
  if hp : p < buf.length then
    if ((splitRecord emb (recordAt buf p)).2).length = 0 then
      scanFrom emb buf (su ++ [(splitRecord emb (recordAt buf p)).2])
        (pushHeader hs (splitRecord emb (recordAt buf p)).1)
        (p + (recordAt buf p).length + 1)
    else
      ScanResult.found (su ++ [(splitRecord emb (recordAt buf p)).2])
        (pushHeader hs (splitRecord emb (recordAt buf p)).1)
        ((splitRecord emb (recordAt buf p)).2)
        (p + (recordAt buf p).length + 1)
  else ScanResult.ended su hs
termination_by buf.length - p
decreasing_by simp; omega

/-- Observable outcome of one successful set_uri call: every call_set_uri
argument in order, every decoded header block appended in order, the final
target (the one the do-while stops on), the new cursor, and whether
core_exit was invoked. -/
structure ProduceOk where
  set_uris : List (List Nat)
  headers : List (List Nat)
  uri : List Nat
  fcurrent : Nat
  exited : Bool

/-- Embedding of one set_uri invocation (uri_wlog.c lines 153-247) on
cursor fc. The wrap branch fires when the cursor is at or past the end: it
resets the cursor to the base and, when looping is disabled, calls
core_exit, while the current request is still produced. A second wrap
inside one call is the panic that reports a file without any valid URIs,
modelled as none. -/
def set_uri (doLoop emb : Bool) (buf : List Nat) (fc : Nat) : Option ProduceOk :=
  if fc < buf.length then
    match scanFrom emb buf [] [] fc with
    | ScanResult.found su hs uri q => some ⟨su, hs, uri, q, false⟩
    | ScanResult.ended su hs =>
      match scanFrom emb buf su hs 0 with
      | ScanResult.found su2 hs2 uri q => some ⟨su2, hs2, uri, q, !doLoop⟩
      | ScanResult.ended _ _ => none
  else
    match scanFrom emb buf [] [] 0 with
    | ScanResult.found su hs uri q => some ⟨su, hs, uri, q, !doLoop⟩
    | ScanResult.ended _ _ => none

/-- Cursor reached after one set_uri call (unchanged on the panic path,
where the process dies anyway). -/
def stepFc (doLoop emb : Bool) (buf : List Nat) (fc : Nat) : Nat :=
  match set_uri doLoop emb buf fc with
  | some r => r.fcurrent
  | none => fc

/-- Cursor before call number k (0-based), starting from the init_wlog
state fcurrent = fbase. -/
def fcAfter (doLoop emb : Bool) (buf : List Nat) : Nat → Nat
  | 0 => 0
  | k + 1 => stepFc doLoop emb buf (fcAfter doLoop emb buf k)

/-- Target produced by call number k (0-based). -/
def uriAt (doLoop emb : Bool) (buf : List Nat) (k : Nat) : Option (List Nat) :=
  Option.map ProduceOk.uri (set_uri doLoop emb buf (fcAfter doLoop emb buf k))

/-- Whether call number k invokes core_exit. -/
def exitedAt (doLoop emb : Bool) (buf : List Nat) (k : Nat) : Option Bool :=
  Option.map ProduceOk.exited (set_uri doLoop emb buf (fcAfter doLoop emb buf k))

/-- Byte image of a record list in the wlog file format
URI1 NUL URI2 NUL ... URIn NUL (uri_wlog.c line 50). -/
def flat : List (List Nat) → List Nat
  | [] => []
  | r :: rs => r ++ 0 :: flat rs

/-- The non-empty records of a record list. -/
def nonempties (rs : List (List Nat)) : List (List Nat) :=
  rs.filter (fun r => decide (r ≠ []))

/-! Helper lemmas about records inside a flattened record list. -/

theorem takeWhile_append_stop (q : Nat → Bool) (xs ys : List Nat) (y : Nat)
    (hx : ∀ x ∈ xs, q x = true) (hy : q y = false) :
    List.takeWhile q (xs ++ y :: ys) = xs := by
  induction xs with
  | nil => simp [List.takeWhile_cons, hy]
  | cons a l ih =>
      have ha : q a = true := hx a (by simp)
      have ih2 := ih (fun x hx2 => hx x (by simp [hx2]))
      simp [List.takeWhile_cons, ha, ih2]

theorem recordAt_append {buf : List Nat} {p : Nat} {r rest : List Nat}
    (hd : buf.drop p = r ++ 0 :: rest) (h0 : (0 : Nat) ∉ r) :
    recordAt buf p = r := by
  unfold recordAt
  rw [hd]
  refine takeWhile_append_stop _ r rest 0 ?_ (by simp)
  intro x hx
  simp only [decide_eq_true_eq]
  intro hx0
  exact h0 (hx0 ▸ hx)

theorem drop_past_record {buf : List Nat} {p : Nat} {r rest : List Nat}
    (hd : buf.drop p = r ++ 0 :: rest) :
    buf.drop (p + r.length + 1) = rest := by
  have h1 : (buf.drop p).drop (r.length + 1) = buf.drop (p + r.length + 1) := by
    rw [List.drop_drop, Nat.add_assoc]
  rw [← h1, hd]
  have h2 : r ++ 0 :: rest = (r ++ [0]) ++ rest := by simp
  have h3 : r.length + 1 = (r ++ [0]).length := by simp
  rw [h2, h3, List.drop_left]

theorem splitRecord_false (record : List Nat) :
    splitRecord false record = (none, record) := by
  simp [splitRecord]

theorem scanFrom_stop {emb : Bool} {buf : List Nat} {su hs : List (List Nat)}
    {p : Nat} (hp : ¬ p < buf.length) :
    scanFrom emb buf su hs p = ScanResult.ended su hs := by
  rw [scanFrom]
  simp [hp]

theorem scanFrom_step_skip {emb : Bool} {buf : List Nat} {su hs : List (List Nat)}
    {p : Nat} (hp : p < buf.length)
    (hz : ((splitRecord emb (recordAt buf p)).2).length = 0) :
    scanFrom emb buf su hs p =
      scanFrom emb buf (su ++ [(splitRecord emb (recordAt buf p)).2])
        (pushHeader hs (splitRecord emb (recordAt buf p)).1)
        (p + (recordAt buf p).length + 1) := by
  conv_lhs => rw [scanFrom]
  simp [hp, hz]

theorem scanFrom_step_found {emb : Bool} {buf : List Nat} {su hs : List (List Nat)}
    {p : Nat} (hp : p < buf.length)
    (hz : ¬ ((splitRecord emb (recordAt buf p)).2).length = 0) :
    scanFrom emb buf su hs p =
      ScanResult.found (su ++ [(splitRecord emb (recordAt buf p)).2])
        (pushHeader hs (splitRecord emb (recordAt buf p)).1)
        ((splitRecord emb (recordAt buf p)).2)
        (p + (recordAt buf p).length + 1) := by
  rw [scanFrom]
  simp [hp, hz]

theorem flat_cons_ne_nil (r : List Nat) (rs : List (List Nat)) :
    flat (r :: rs) ≠ [] := by
  simp [flat]

theorem drop_lt_of_flat_cons {buf : List Nat} {p : Nat} {r : List Nat}
    {rs : List (List Nat)} (hd : buf.drop p = flat (r :: rs)) :
    p < buf.length := by
  rcases Nat.lt_or_ge p buf.length with h | h
  · exact h
  · exact absurd (List.drop_eq_nil_iff.mpr h)
      (by rw [hd]; exact flat_cons_ne_nil r rs)

theorem nonempties_cons_nil (rs : List (List Nat)) :
    nonempties ([] :: rs) = nonempties rs := by
  simp [nonempties]

theorem nonempties_cons_ne {r : List Nat} (rs : List (List Nat)) (hr : r ≠ []) :
    nonempties (r :: rs) = r :: nonempties rs := by
  simp [nonempties, hr]

/-- A scan over a suffix made only of empty records runs off the buffer
end without touching the header accumulator. -/
theorem scanFrom_flat_ended (buf : List Nat) :
    ∀ (rs : List (List Nat)) (p : Nat) (su hs : List (List Nat)),
    buf.drop p = flat rs → (∀ r ∈ rs, r = []) →
    ∃ su2, scanFrom false buf su hs p = ScanResult.ended su2 hs := by
  intro rs
  induction rs with
  | nil =>
    intro p su hs hd _
    have hp : ¬ p < buf.length := by
      have h1 : buf.drop p = [] := by rw [hd]; rfl
      have h2 := List.drop_eq_nil_iff.mp h1
      omega
    exact ⟨su, scanFrom_stop hp⟩
  | cons r rest ih =>
    intro p su hs hd hall
    have hr : r = [] := hall r (by simp)
    subst hr
    have hd2 : buf.drop p = [] ++ 0 :: flat rest := by rw [hd]; simp [flat]
    have hp : p < buf.length := drop_lt_of_flat_cons hd
    have hrec : recordAt buf p = [] := recordAt_append hd2 (by simp)
    have hz : ((splitRecord false (recordAt buf p)).2).length = 0 := by
      rw [hrec]; rfl
    have hstep := @scanFrom_step_skip false buf su hs p hp hz
    rw [hstep, hrec]
    have hdrop : buf.drop (p + List.length ([] : List Nat) + 1) = flat rest := by
      simpa using drop_past_record hd2
    exact ih _ _ _ hdrop (fun x hx => hall x (List.mem_cons_of_mem _ hx))

/-- A scan over a suffix whose record list still holds a non-empty record
stops at the first such record, skipping the empty ones before it, and
leaves the cursor right past that record and its terminator; the header
accumulator is untouched when embedded headers are off. -/
theorem scanFrom_flat_found (buf : List Nat) :
    ∀ (rs : List (List Nat)) (p : Nat) (su hs : List (List Nat))
      (e : List Nat) (nrest : List (List Nat)),
    buf.drop p = flat rs → (∀ r ∈ rs, (0 : Nat) ∉ r) →
    nonempties rs = e :: nrest →
    ∃ su2 q rest2,
      scanFrom false buf su hs p = ScanResult.found su2 hs e q ∧
      buf.drop q = flat rest2 ∧ (∀ r ∈ rest2, (0 : Nat) ∉ r) ∧
      nonempties rest2 = nrest := by
  intro rs
  induction rs with
  | nil =>
    intro p su hs e nrest hd h0 hne
    simp [nonempties] at hne
  | cons r rest ih =>
    intro p su hs e nrest hd h0 hne
    have hd2 : buf.drop p = r ++ 0 :: flat rest := by rw [hd]; simp [flat]
    have hp : p < buf.length := drop_lt_of_flat_cons hd
    have hrec : recordAt buf p = r := recordAt_append hd2 (h0 r (by simp))
    by_cases hr : r = []
    · subst hr
      have hz : ((splitRecord false (recordAt buf p)).2).length = 0 := by
        rw [hrec]; rfl
      have hstep := @scanFrom_step_skip false buf su hs p hp hz
      rw [hstep, hrec]
      have hdrop : buf.drop (p + List.length ([] : List Nat) + 1) = flat rest := by
        simpa using drop_past_record hd2
      have hne2 : nonempties rest = e :: nrest := by
        rw [← nonempties_cons_nil rest]; exact hne
      exact ih _ _ _ e nrest hdrop
        (fun x hx => h0 x (List.mem_cons_of_mem _ hx)) hne2
    · have hz : ¬ ((splitRecord false (recordAt buf p)).2).length = 0 := by
        rw [hrec, splitRecord_false]
        simpa using hr
      have hstep := @scanFrom_step_found false buf su hs p hp hz
      rw [hstep, hrec]
      have hEq : r :: nonempties rest = e :: nrest := by
        rw [← nonempties_cons_ne rest hr]; exact hne
      have hre : r = e := (List.cons.injEq _ _ _ _ ▸ hEq).1
      have hnrest : nonempties rest = nrest := (List.cons.injEq _ _ _ _ ▸ hEq).2
      subst hre
      exact ⟨su ++ [r], p + r.length + 1, rest, rfl, drop_past_record hd2,
        fun x hx => h0 x (List.mem_cons_of_mem _ hx), hnrest⟩

/-- When the suffix of the record list at the cursor still holds a
non-empty record, set_uri produces the first one without wrapping. -/
theorem set_uri_suffix_found (doLoop : Bool) (buf : List Nat)
    (rsSuf : List (List Nat)) (p : Nat) (e : List Nat) (nrest : List (List Nat))
    (hd : buf.drop p = flat rsSuf) (h0 : ∀ r ∈ rsSuf, (0 : Nat) ∉ r)
    (hne : nonempties rsSuf = e :: nrest) :
    ∃ su hs q rest2,
      set_uri doLoop false buf p = some ⟨su, hs, e, q, false⟩ ∧
      buf.drop q = flat rest2 ∧ (∀ r ∈ rest2, (0 : Nat) ∉ r) ∧
      nonempties rest2 = nrest := by
  obtain ⟨su2, q, rest2, hscan, hq, h02, hne2⟩ :=
    scanFrom_flat_found buf rsSuf p [] [] e nrest hd h0 hne
  have hp : p < buf.length := by
    cases rsSuf with
    | nil => simp [nonempties] at hne
    | cons a l => exact drop_lt_of_flat_cons hd
  refine ⟨su2, [], q, rest2, ?_, hq, h02, hne2⟩
  unfold set_uri
  rw [if_pos hp, hscan]

/-- When the suffix at the cursor has only empty records left (or the
cursor is already at or past the end), set_uri wraps around, produces the
first non-empty record of the whole list, and invokes core_exit exactly
when looping is disabled. -/
theorem set_uri_flat_wrap (doLoop : Bool) (buf : List Nat)
    (rs rsSuf : List (List Nat)) (p : Nat) (e0 : List Nat) (ntl : List (List Nat))
    (hbuf : buf = flat rs) (h0 : ∀ r ∈ rs, (0 : Nat) ∉ r)
    (hne : nonempties rs = e0 :: ntl)
    (hd : buf.drop p = flat rsSuf) (hallEmpty : ∀ r ∈ rsSuf, r = []) :
    ∃ su hs q rest2,
      set_uri doLoop false buf p = some ⟨su, hs, e0, q, !doLoop⟩ ∧
      buf.drop q = flat rest2 ∧ (∀ r ∈ rest2, (0 : Nat) ∉ r) ∧
      nonempties rest2 = ntl := by
  have hd0 : buf.drop 0 = flat rs := by simpa using hbuf
  by_cases hp : p < buf.length
  · obtain ⟨su2, hscan1⟩ := scanFrom_flat_ended buf rsSuf p [] [] hd hallEmpty
    obtain ⟨su3, q, rest2, hscan2, hq, h02, hne2⟩ :=
      scanFrom_flat_found buf rs 0 su2 [] e0 ntl hd0 h0 hne
    refine ⟨su3, [], q, rest2, ?_, hq, h02, hne2⟩
    simp [set_uri, hp, hscan1, hscan2]
  · obtain ⟨su3, q, rest2, hscan2, hq, h02, hne2⟩ :=
      scanFrom_flat_found buf rs 0 [] [] e0 ntl hd0 h0 hne
    refine ⟨su3, [], q, rest2, ?_, hq, h02, hne2⟩
    simp [set_uri, hp, hscan2]

/-- The all-empty reading of an exhausted non-empty record list. -/
theorem all_empty_of_nonempties_nil {rsSuf : List (List Nat)}
    (h : nonempties rsSuf = []) : ∀ r ∈ rsSuf, r = [] := by
  intro r hr
  have := List.filter_eq_nil_iff.mp h r hr
  simpa using this

/-- Invariant of the cursor iteration: before call number k the cursor
sits at the start of a suffix of the record list whose non-empty records
are exactly the last m - (k mod m) of the m non-empty records (with the
whole list pending again right after each wrap). -/
theorem wlog_invariant (doLoop : Bool) (rs : List (List Nat))
    (h0 : ∀ r ∈ rs, (0 : Nat) ∉ r) (e0 : List Nat) (ntl : List (List Nat))
    (hne : nonempties rs = e0 :: ntl) :
    ∀ k, ∃ j rsSuf,
      j ≤ (nonempties rs).length ∧
      (k = 0 → j = 0) ∧ (k ≠ 0 → 1 ≤ j) ∧
      j % (nonempties rs).length = k % (nonempties rs).length ∧
      (flat rs).drop (fcAfter doLoop false (flat rs) k) = flat rsSuf ∧
      (∀ r ∈ rsSuf, (0 : Nat) ∉ r) ∧
      nonempties rsSuf = (nonempties rs).drop j := by
  intro k
  induction k with
  | zero =>
    exact ⟨0, rs, Nat.zero_le _, fun _ => rfl, fun h => absurd rfl h, rfl,
      by simp [fcAfter], h0, by simp⟩
  | succ k ih =>
    obtain ⟨j, rsSuf, hjm, hk0, hk1, hmod, hdk, h0Suf, hneSuf⟩ := ih
    have hmpos : 0 < (nonempties rs).length := by rw [hne]; simp
    rcases Nat.lt_or_ge j (nonempties rs).length with hj | hj
    · have hdropj : (nonempties rs).drop j =
          (nonempties rs)[j] :: (nonempties rs).drop (j + 1) :=
        List.drop_eq_getElem_cons hj
      obtain ⟨su, hs, q, rest2, hset, hq, h02, hne2⟩ :=
        set_uri_suffix_found doLoop (flat rs) rsSuf
          (fcAfter doLoop false (flat rs) k) (nonempties rs)[j]
          ((nonempties rs).drop (j + 1)) hdk h0Suf (hneSuf.trans hdropj)
      have hfc : fcAfter doLoop false (flat rs) (k + 1) = q := by
        simp [fcAfter, stepFc, hset]
      refine ⟨j + 1, rest2, hj, by omega, fun _ => by omega, ?_,
        by rw [hfc]; exact hq, h02, hne2⟩
      rw [Nat.add_mod j 1, Nat.add_mod k 1, hmod]
    · have hjem : j = (nonempties rs).length := by omega
      have hallE : ∀ r ∈ rsSuf, r = [] := by
        apply all_empty_of_nonempties_nil
        rw [hneSuf, hjem, List.drop_length]
      obtain ⟨su, hs, q, rest2, hset, hq, h02, hne2⟩ :=
        set_uri_flat_wrap doLoop (flat rs) rs rsSuf
          (fcAfter doLoop false (flat rs) k) e0 ntl rfl h0 hne hdk hallE
      have hfc : fcAfter doLoop false (flat rs) (k + 1) = q := by
        simp [fcAfter, stepFc, hset]
      have hkm0 : k % (nonempties rs).length = 0 := by
        rw [← hmod, hjem, Nat.mod_self]
      have hnedrop : (nonempties rs).drop 1 = ntl := by rw [hne]; rfl
      refine ⟨1, rest2, hmpos, ?_, fun _ => le_refl 1, ?_,
        by rw [hfc]; exact hq, h02, by rw [hnedrop]; exact hne2⟩
      · intro hk
        omega
      · rw [Nat.add_mod k 1, hkm0]
        simp

/-- Closed form of the production sequence: with at least one non-empty
record, call number k produces the non-empty record of index k mod m
(m the number of non-empty records) and invokes core_exit exactly on the
wrapping calls (k positive, k mod m = 0) when looping is disabled. -/
theorem wlog_production (doLoop : Bool) (rs : List (List Nat))
    (h0 : ∀ r ∈ rs, (0 : Nat) ∉ r) (e0 : List Nat) (ntl : List (List Nat))
    (hne : nonempties rs = e0 :: ntl) (k : Nat) :
    uriAt doLoop false (flat rs) k =
      some ((nonempties rs).getD (k % (nonempties rs).length) []) ∧
    exitedAt doLoop false (flat rs) k =
      some (decide (k ≠ 0) && decide (k % (nonempties rs).length = 0) &&
        !doLoop) := by
  obtain ⟨j, rsSuf, hjm, hk0, hk1, hmod, hdk, h0Suf, hneSuf⟩ :=
    wlog_invariant doLoop rs h0 e0 ntl hne k
  have hmpos : 0 < (nonempties rs).length := by rw [hne]; simp
  rcases Nat.lt_or_ge j (nonempties rs).length with hj | hj
  · have hdropj : (nonempties rs).drop j =
        (nonempties rs)[j] :: (nonempties rs).drop (j + 1) :=
      List.drop_eq_getElem_cons hj
    obtain ⟨su, hs, q, rest2, hset, hq, h02, hne2⟩ :=
      set_uri_suffix_found doLoop (flat rs) rsSuf
        (fcAfter doLoop false (flat rs) k) (nonempties rs)[j]
        ((nonempties rs).drop (j + 1)) hdk h0Suf (hneSuf.trans hdropj)
    have hjk : j = k % (nonempties rs).length := by
      rw [← hmod]
      exact (Nat.mod_eq_of_lt hj).symm
    have hval : (nonempties rs)[j] =
        (nonempties rs).getD (k % (nonempties rs).length) [] := by
      rw [← hjk, List.getD_eq_getElem _ _ hj]
    refine ⟨?_, ?_⟩
    · simp [uriAt, hset, hval]
    · simp only [exitedAt, hset, Option.map]
      rcases Nat.eq_zero_or_pos k with hk | hk
      · subst hk
        simp
      · have hne0 : k % (nonempties rs).length ≠ 0 := by
          rw [← hjk]
          have := hk1 (by omega)
          omega
        simp [hne0]
  · have hjem : j = (nonempties rs).length := by omega
    have hallE : ∀ r ∈ rsSuf, r = [] := by
      apply all_empty_of_nonempties_nil
      rw [hneSuf, hjem, List.drop_length]
    obtain ⟨su, hs, q, rest2, hset, hq, h02, hne2⟩ :=
      set_uri_flat_wrap doLoop (flat rs) rs rsSuf
        (fcAfter doLoop false (flat rs) k) e0 ntl rfl h0 hne hdk hallE
    have hkm0 : k % (nonempties rs).length = 0 := by
      rw [← hmod, hjem, Nat.mod_self]
    have hkne : k ≠ 0 := by
      intro hk
      have := hk0 hk
      omega
    have hval : e0 = (nonempties rs).getD (k % (nonempties rs).length) [] := by
      rw [hkm0, hne]
      rfl
    refine ⟨?_, ?_⟩
    · simp [uriAt, hset, hval]
    · simp [exitedAt, hset, hkm0, hkne]

theorem nonempties_eq_self {rs : List (List Nat)} (h : ∀ r ∈ rs, r ≠ []) :
    nonempties rs = rs := by
  apply List.filter_eq_self.mpr
  intro a ha
  simpa using h a ha

/-- Claim C1: for a log of n non-empty NUL-terminated records with looping
disabled, calls 0 .. n-1 set the URI to the n records in file order
without invoking core_exit, and call n (the n+1-th invocation) invokes
core_exit while still producing a record (the first one, after the
wrap). -/
theorem set_uri_replays_records_then_exits (rs : List (List Nat))
    (hrs : rs ≠ []) (hgood : ∀ r ∈ rs, r ≠ [] ∧ (0 : Nat) ∉ r) :
    (∀ k, k < rs.length →
      uriAt false false (flat rs) k = some (rs.getD k []) ∧
      exitedAt false false (flat rs) k = some false) ∧
    uriAt false false (flat rs) rs.length = some (rs.getD 0 []) ∧
    exitedAt false false (flat rs) rs.length = some true := by
  have hself : nonempties rs = rs := nonempties_eq_self (fun r hr => (hgood r hr).1)
  obtain ⟨e0, ntl, hcons⟩ := List.exists_cons_of_ne_nil hrs
  have hne : nonempties rs = e0 :: ntl := by rw [hself, hcons]
  have hnpos : 0 < rs.length := List.length_pos.mpr hrs
  have h0 : ∀ r ∈ rs, (0 : Nat) ∉ r := fun r hr => (hgood r hr).2
  refine ⟨?_, ?_, ?_⟩
  · intro k hk
    obtain ⟨hu, he⟩ := wlog_production false rs h0 e0 ntl hne k
    rw [hself] at hu he
    constructor
    · rw [hu, Nat.mod_eq_of_lt hk]
    · rw [he]
      congr 1
      rcases Nat.eq_zero_or_pos k with h0k | h0k
      · subst h0k
        simp
      · have hk0 : k ≠ 0 := by omega
        have hkm : k % rs.length = k := Nat.mod_eq_of_lt hk
        simp [hk0, hkm]
  · obtain ⟨hu, he⟩ := wlog_production false rs h0 e0 ntl hne rs.length
    rw [hself] at hu
    rw [hu, Nat.mod_self]
  · obtain ⟨hu, he⟩ := wlog_production false rs h0 e0 ntl hne rs.length
    rw [hself] at he
    rw [he]
    congr 1
    have hl0 : rs.length ≠ 0 := by omega
    simp [hl0, Nat.mod_self]

theorem set_uri_replays_records_then_exits_witness :
    uriAt false false (flat [[65], [66]]) 0 = some [65] ∧
    uriAt false false (flat [[65], [66]]) 1 = some [66] ∧
    exitedAt false false (flat [[65], [66]]) 1 = some false ∧
    uriAt false false (flat [[65], [66]]) 2 = some [65] ∧
    exitedAt false false (flat [[65], [66]]) 2 = some true := by
  have h := set_uri_replays_records_then_exits [[65], [66]] (by decide) (by decide)
  exact ⟨(h.1 0 (by decide)).1, (h.1 1 (by decide)).1, (h.1 1 (by decide)).2,
    h.2.1, h.2.2⟩

/-- Claim C5: with looping enabled, production over a log of n non-empty
records is periodic with period n: the target of call k equals the target
of call k + n, for every k. -/
theorem set_uri_loop_periodic (rs : List (List Nat)) (hrs : rs ≠ [])
    (hgood : ∀ r ∈ rs, r ≠ [] ∧ (0 : Nat) ∉ r) (k : Nat) :
    uriAt true false (flat rs) k = uriAt true false (flat rs) (k + rs.length) := by
  have hself : nonempties rs = rs := nonempties_eq_self (fun r hr => (hgood r hr).1)
  obtain ⟨e0, ntl, hcons⟩ := List.exists_cons_of_ne_nil hrs
  have hne : nonempties rs = e0 :: ntl := by rw [hself, hcons]
  have h0 : ∀ r ∈ rs, (0 : Nat) ∉ r := fun r hr => (hgood r hr).2
  obtain ⟨hu1, _⟩ := wlog_production true rs h0 e0 ntl hne k
  obtain ⟨hu2, _⟩ := wlog_production true rs h0 e0 ntl hne (k + rs.length)
  rw [hself] at hu1 hu2
  rw [hu1, hu2, Nat.add_mod_right]

theorem set_uri_loop_periodic_witness :
    uriAt true false (flat [[65], [66]]) 1 =
      uriAt true false (flat [[65], [66]]) 3 := by
  exact set_uri_loop_periodic [[65], [66]] (by decide) (by decide) 1

/-- Claim C6: empty records are invisible to the host: the target sequence
of a log equals, call for call, the target sequence of the log with all
empty records (runs of consecutive NUL terminators) collapsed away. -/
theorem set_uri_empty_records_invisible (rs : List (List Nat))
    (h0 : ∀ r ∈ rs, (0 : Nat) ∉ r) (hne : nonempties rs ≠ [])
    (doLoop : Bool) (k : Nat) :
    uriAt doLoop false (flat rs) k =
      uriAt doLoop false (flat (nonempties rs)) k := by
  obtain ⟨e0, ntl, hcons⟩ := List.exists_cons_of_ne_nil hne
  have h0n : ∀ r ∈ nonempties rs, (0 : Nat) ∉ r :=
    fun r hr => h0 r (List.mem_of_mem_filter hr)
  have hselfn : nonempties (nonempties rs) = nonempties rs := by
    apply nonempties_eq_self
    intro r hr
    simp only [nonempties, List.mem_filter] at hr
    simpa using hr.2
  obtain ⟨hu1, _⟩ := wlog_production doLoop rs h0 e0 ntl hcons k
  obtain ⟨hu2, _⟩ := wlog_production doLoop (nonempties rs) h0n e0 ntl
    (by rw [hselfn]; exact hcons) k
  rw [hu1, hu2, hselfn]

theorem set_uri_empty_records_invisible_witness :
    uriAt true false (flat [[], [65], [], [], [66], []]) 1 =
      uriAt true false (flat (nonempties [[], [65], [], [], [66], []])) 1 := by
  exact set_uri_empty_records_invisible [[], [65], [], [], [66], []]
    (by decide) (by decide) true 1

theorem splitRecord_nil (emb : Bool) : splitRecord emb [] = (none, []) := by
  simp [splitRecord]

theorem recordAt_zeros {buf : List Nat} {p : Nat} (hz : ∀ b ∈ buf, b = 0)
    (hp : p < buf.length) : recordAt buf p = [] := by
  unfold recordAt
  cases hd : buf.drop p with
  | nil => simp
  | cons b t =>
    have hb : b ∈ buf := List.mem_of_mem_drop (hd ▸ List.mem_cons_self b t)
    have hb0 : b = 0 := hz b hb
    subst hb0
    simp [List.takeWhile_cons]

/-- Over a buffer holding only NUL bytes every scan runs off the end:
every record is empty, so the do-while never stops. -/
theorem scanFrom_zeros (emb : Bool) (buf : List Nat) (hz : ∀ b ∈ buf, b = 0) :
    ∀ (n p : Nat) (su hs : List (List Nat)), buf.length - p ≤ n →
    ∃ su2 hs2, scanFrom emb buf su hs p = ScanResult.ended su2 hs2 := by
  intro n
  induction n with
  | zero =>
    intro p su hs hn
    have hp : ¬ p < buf.length := by omega
    exact ⟨su, hs, scanFrom_stop hp⟩
  | succ n ih =>
    intro p su hs hn
    by_cases hp : p < buf.length
    · have hrec : recordAt buf p = [] := recordAt_zeros hz hp
      have hz0 : ((splitRecord emb (recordAt buf p)).2).length = 0 := by
        rw [hrec, splitRecord_nil]
        rfl
      have hstep := @scanFrom_step_skip emb buf su hs p hp hz0
      rw [hstep, hrec]
      exact ih _ _ _ (by simp; omega)
    · exact ⟨su, hs, scanFrom_stop hp⟩

/-- Claim C4: a log whose bytes are all NUL (so every record over a full
cycle is empty, e.g. the single-NUL file) makes the first set_uri call hit
the did-wrap panic rather than loop forever, for either loop setting and
either header mode, from any cursor. -/
theorem set_uri_only_empty_fatal (buf : List Nat) (hb : buf ≠ [])
    (hz : ∀ b ∈ buf, b = 0) (doLoop emb : Bool) (fc : Nat) :
    set_uri doLoop emb buf fc = none := by
  have hscan : ∀ (p : Nat) (su hs : List (List Nat)),
      ∃ su2 hs2, scanFrom emb buf su hs p = ScanResult.ended su2 hs2 :=
    fun p su hs => scanFrom_zeros emb buf hz buf.length p su hs (by omega)
  by_cases hfc : fc < buf.length
  · obtain ⟨su2, hs2, h1⟩ := hscan fc [] []
    obtain ⟨su3, hs3, h2⟩ := hscan 0 su2 hs2
    simp [set_uri, hfc, h1, h2]
  · obtain ⟨su2, hs2, h1⟩ := hscan 0 [] []
    simp [set_uri, hfc, h1]

theorem set_uri_only_empty_fatal_witness :
    set_uri false false [0] 0 = none :=
  set_uri_only_empty_fatal [0] (by decide) (by decide) false false 0

/-- Claim C7 counterexample: a one-byte log without a final NUL. The
single set_uri call takes the whole byte as the record (strlen stops at
the zero fill past the end) and then advances the cursor by the record
length plus one, landing at end + 1 — past the end, not exactly at it. -/
theorem set_uri_cursor_past_end_cex :
    set_uri false false [65] 0 = some ⟨[[65]], [], [65], 2, false⟩ ∧
    List.length [65] < 2 := by
  constructor
  · simp [set_uri, scanFrom, recordAt, splitRecord, pushHeader]
  · decide

theorem splitRecord_target_suffix (emb : Bool) (record : List Nat) :
    ∃ pre, pre ++ (splitRecord emb record).2 = record := by
  unfold splitRecord
  split
  · exact ⟨record.take ((record.takeWhile (fun b => decide (b ≠ 1))).length + 1),
      List.take_append_drop _ _⟩
  · exact ⟨[], rfl⟩

theorem recordAt_length_le (buf : List Nat) (p : Nat) :
    (recordAt buf p).length ≤ buf.length - p := by
  unfold recordAt
  calc ((buf.drop p).takeWhile (fun b => decide (b ≠ 0))).length
      ≤ (buf.drop p).length := List.Sublist.length_le (List.takeWhile_sublist _)
    _ = buf.length - p := List.length_drop p buf

/-- Any found result of a scan has its cursor at most one past the buffer
end and its target drawn from inside the buffer. -/
theorem scanFrom_found_bound (emb : Bool) (buf : List Nat) :
    ∀ (n p : Nat) (su hs su2 hs2 : List (List Nat)) (uri : List Nat) (q : Nat),
    buf.length - p ≤ n →
    scanFrom emb buf su hs p = ScanResult.found su2 hs2 uri q →
    q ≤ buf.length + 1 ∧ ∃ pre post, buf = pre ++ uri ++ post := by
  intro n
  induction n with
  | zero =>
    intro p su hs su2 hs2 uri q hn hfound
    have hp : ¬ p < buf.length := by omega
    rw [scanFrom_stop hp] at hfound
    exact absurd hfound (by simp)
  | succ n ih =>
    intro p su hs su2 hs2 uri q hn hfound
    by_cases hp : p < buf.length
    · by_cases hz : ((splitRecord emb (recordAt buf p)).2).length = 0
      · rw [scanFrom_step_skip hp hz] at hfound
        exact ih _ _ _ _ _ _ _ (by omega) hfound
      · rw [scanFrom_step_found hp hz] at hfound
        simp only [ScanResult.found.injEq] at hfound
        obtain ⟨hsu, hhs, huri, hq⟩ := hfound
        subst huri
        subst hq
        constructor
        · have := recordAt_length_le buf p
          omega
        · obtain ⟨pre2, hpre2⟩ := splitRecord_target_suffix emb (recordAt buf p)
          have hrecpre : recordAt buf p ++
              (buf.drop p).dropWhile (fun b => decide (b ≠ 0)) = buf.drop p := by
            unfold recordAt
            exact List.takeWhile_append_dropWhile _ _
          refine ⟨buf.take p ++ pre2,
            (buf.drop p).dropWhile (fun b => decide (b ≠ 0)), ?_⟩
          calc buf = buf.take p ++ buf.drop p := (List.take_append_drop p buf).symm
            _ = buf.take p ++ (recordAt buf p ++
                (buf.drop p).dropWhile (fun b => decide (b ≠ 0))) := by
                rw [hrecpre]
            _ = buf.take p ++ ((pre2 ++ (splitRecord emb (recordAt buf p)).2) ++
                (buf.drop p).dropWhile (fun b => decide (b ≠ 0))) := by
                rw [hpre2]
            _ = (buf.take p ++ pre2) ++ (splitRecord emb (recordAt buf p)).2 ++
                (buf.drop p).dropWhile (fun b => decide (b ≠ 0)) := by
                simp [List.append_assoc]
    · rw [scanFrom_stop hp] at hfound
      exact absurd hfound (by simp)

/-- Claim C7 (amended): after every successful set_uri call the cursor is
at most one past the buffer end — exactly end + 1 when the final record
has no terminator, end for a terminated final record — rather than always
at most end; any cursor at or past the end wraps on the next call, and the
produced target always consists of bytes drawn from inside the buffer. -/
theorem set_uri_cursor_bound (doLoop emb : Bool) (buf : List Nat) (fc : Nat)
    (r : ProduceOk) (h : set_uri doLoop emb buf fc = some r) :
    r.fcurrent ≤ buf.length + 1 ∧ ∃ pre post, buf = pre ++ r.uri ++ post := by
  unfold set_uri at h
  by_cases hfc : fc < buf.length
  · rw [if_pos hfc] at h
    split at h
    · rename_i su2 hs2 u q h1
      have hr := Option.some.inj h
      obtain ⟨hb, hd⟩ :=
        scanFrom_found_bound emb buf buf.length fc [] [] su2 hs2 u q (by omega) h1
      rw [← hr]
      exact ⟨hb, hd⟩
    · rename_i su2 hs2 h1
      split at h
      · rename_i su3 hs3 u q h2
        have hr := Option.some.inj h
        obtain ⟨hb, hd⟩ :=
          scanFrom_found_bound emb buf buf.length 0 su2 hs2 su3 hs3 u q
            (by omega) h2
        rw [← hr]
        exact ⟨hb, hd⟩
      · exact absurd h (by simp)
  · rw [if_neg hfc] at h
    split at h
    · rename_i su3 hs3 u q h2
      have hr := Option.some.inj h
      obtain ⟨hb, hd⟩ :=
        scanFrom_found_bound emb buf buf.length 0 [] [] su3 hs3 u q (by omega) h2
      rw [← hr]
      exact ⟨hb, hd⟩
    · exact absurd h (by simp)

theorem set_uri_cursor_bound_witness :
    (⟨[[65]], [], [65], 2, false⟩ : ProduceOk).fcurrent ≤ [65, 0].length + 1 ∧
    ∃ pre post, [65, 0] = pre ++ (⟨[[65]], [], [65], 2, false⟩ : ProduceOk).uri ++ post :=
  set_uri_cursor_bound false false [65, 0] 0 ⟨[[65]], [], [65], 2, false⟩
    (by simp [set_uri, scanFrom, recordAt, splitRecord, pushHeader])

/-- A record containing the sentinel decomposes as the bytes before the
first sentinel, the sentinel itself, and the rest. -/
theorem sentinel_reconstruct {l : List Nat} (h : (1 : Nat) ∈ l) :
    l = l.takeWhile (fun b => decide (b ≠ 1)) ++
      1 :: l.drop ((l.takeWhile (fun b => decide (b ≠ 1))).length + 1) := by
  induction l with
  | nil => cases h
  | cons a t ih =>
    by_cases ha : a = 1
    · subst ha
      simp [List.takeWhile_cons]
    · have hmem : (1 : Nat) ∈ t := by
        cases h with
        | head => exact absurd rfl ha
        | tail _ hm => exact hm
      have ih2 := ih hmem
      have htw : (a :: t).takeWhile (fun b => decide (b ≠ 1)) =
          a :: t.takeWhile (fun b => decide (b ≠ 1)) := by
        rw [List.takeWhile_cons]
        simp [ha]
      rw [htw]
      simp only [List.cons_append, List.length_cons, List.drop_succ_cons]
      exact congrArg (a :: ·) ih2

/-- Claim C2: with embedded headers enabled, a record holding the 0x01
sentinel splits as HEADERS sentinel TARGET: the raw header block is the
bytes strictly before the first sentinel (the copying scan stops at that
closing sentinel and discards it), the target is the bytes after it to the
record end — so the record reassembles as header ++ 0x01 ++ target — and
the target length is the record length minus the header length minus one.
The bytes of GET-header 0x01 /index.html split into GET-header and
/index.html, and with the mode disabled the whole record is the target
with no header produced. -/
theorem splitRecord_headers_target :
    (∀ record : List Nat, (1 : Nat) ∈ record →
      ∃ hdr, splitRecord true record = (some hdr, record.drop (hdr.length + 1)) ∧
        (1 : Nat) ∉ hdr ∧
        record = hdr ++ 1 :: (splitRecord true record).2 ∧
        (splitRecord true record).2.length = record.length - hdr.length - 1) ∧
    splitRecord true
        ([71, 69, 84, 45, 104, 101, 97, 100, 101, 114] ++ 1 ::
          [47, 105, 110, 100, 101, 120, 46, 104, 116, 109, 108]) =
      (some [71, 69, 84, 45, 104, 101, 97, 100, 101, 114],
       [47, 105, 110, 100, 101, 120, 46, 104, 116, 109, 108]) ∧
    (∀ record : List Nat, splitRecord false record = (none, record)) := by
  refine ⟨?_, by decide, splitRecord_false⟩
  intro record hmem
  refine ⟨record.takeWhile (fun b => decide (b ≠ 1)), ?_, ?_, ?_, ?_⟩
  · simp [splitRecord, hmem]
  · intro hx
    have := List.mem_takeWhile_imp hx
    simp at this
  · have hs : splitRecord true record =
        (some (record.takeWhile (fun b => decide (b ≠ 1))),
         record.drop ((record.takeWhile (fun b => decide (b ≠ 1))).length + 1)) := by
      simp [splitRecord, hmem]
    rw [hs]
    exact sentinel_reconstruct hmem
  · have hs : splitRecord true record =
        (some (record.takeWhile (fun b => decide (b ≠ 1))),
         record.drop ((record.takeWhile (fun b => decide (b ≠ 1))).length + 1)) := by
      simp [splitRecord, hmem]
    rw [hs]
    simp [List.length_drop]
    omega

theorem splitRecord_headers_target_witness :
    ∃ hdr, splitRecord true [72, 1, 84] =
        (some hdr, [72, 1, 84].drop (hdr.length + 1)) ∧
      (1 : Nat) ∉ hdr ∧
      [72, 1, 84] = hdr ++ 1 :: (splitRecord true [72, 1, 84]).2 ∧
      (splitRecord true [72, 1, 84]).2.length =
        [72, 1, 84].length - hdr.length - 1 :=
  splitRecord_headers_target.1 [72, 1, 84] (by decide)

/-- Claim C3: the escape decoder never fails: the named escapes decode to
their bytes (backslash-backslash to one backslash, backslash-a to 0x0A,
backslash-r to 0x0D, backslash-n to the two bytes 0x0D 0x0A, the octal
escape 101 to the single byte 0x41), and a backslash before any character
outside the escape grammar — z, say — passes that character through
literally while emitting exactly one non-fatal diagnostic, never an
error. -/
theorem unescape_local_escapes :
    unescape_local [92, 92, 0] = ([92], 0) ∧
    unescape_local [92, 97, 0] = ([10], 0) ∧
    unescape_local [92, 114, 0] = ([13], 0) ∧
    unescape_local [92, 110, 0] = ([13, 10], 0) ∧
    unescape_local [92, 49, 48, 49, 0] = ([65], 0) ∧
    unescape_local [92, 122, 0] = ([122], 1) ∧
    (∀ (d : Nat) (tl : List Nat), d ≠ 0 → d ≠ 92 → d ≠ 97 → d ≠ 114 →
      d ≠ 110 → ¬ (48 ≤ d ∧ d ≤ 57) →
      unescape_local (92 :: d :: tl) =
        (d :: (unescape_local tl).1, (unescape_local tl).2 + 1)) := by
  refine ⟨?_, ?_, ?_, ?_, ?_, ?_, ?_⟩
  · simp [unescape_local]
  · simp [unescape_local]
  · simp [unescape_local]
  · simp [unescape_local]
  · simp [unescape_local, octVal, isOctDigit, LONG_MAX]
  · simp [unescape_local]
  · intro d tl h0 h92 h97 h114 h110 hd
    rw [unescape_local]
    simp [h92, h97, h114, h110, hd]

theorem unescape_local_escapes_witness :
    unescape_local (92 :: 122 :: [0]) =
      (122 :: (unescape_local [0]).1, (unescape_local [0]).2 + 1) :=
  unescape_local_escapes.2.2.2.2.2.2 122 [0] (by decide) (by decide)
    (by decide) (by decide) (by decide) (by decide)

/-- Claim C8 counterexample: the escape backslash 777 does not emit a byte
of value 511 (the octal value of the maximal digit run) but its char
truncation 255, and the escape backslash 8 emits two bytes — a NUL from
the failed strtol parse and then the digit 8 itself — so the decoder does
not always emit exactly one byte of the octal value of the run. -/
theorem unescape_octal_cex :
    unescape_local [92, 55, 55, 55, 0] = ([255], 0) ∧
    unescape_local [92, 56, 0] = ([0, 56], 0) ∧
    octVal [55, 55, 55] = 511 ∧ (255 : Nat) ≠ 511 := by
  refine ⟨?_, ?_, by decide, by decide⟩
  · simp [unescape_local, octVal, isOctDigit, LONG_MAX]
  · simp [unescape_local, octVal, isOctDigit, LONG_MAX]

/-- A byte that is neither the terminator nor a backslash is copied
through unchanged. -/
theorem unescape_local_plain (c : Nat) (tl : List Nat) (h0 : c ≠ 0)
    (h92 : c ≠ 92) :
    unescape_local (c :: tl) =
      (c :: (unescape_local tl).1, (unescape_local tl).2) := by
  rw [unescape_local.eq_def]
  simp [h0, h92]

/-- Claim C8 (amended): a backslash followed by a digit 0..7 consumes the
maximal run of octal digits and emits exactly one byte, the value of the
run saturated at LONG_MAX and reduced modulo 256 by the char store; a
backslash followed by 8 or 9 makes strtol parse nothing, so a NUL byte is
emitted and the digit is reprocessed as an ordinary input character. -/
theorem unescape_octal_amended :
    (∀ (ds : List Nat) (b : Nat) (tl : List Nat), ds ≠ [] →
      (∀ d ∈ ds, 48 ≤ d ∧ d ≤ 55) → ¬ (48 ≤ b ∧ b ≤ 55) →
      unescape_local (92 :: ds ++ b :: tl) =
        (min (octVal ds) LONG_MAX % 256 :: (unescape_local (b :: tl)).1,
         (unescape_local (b :: tl)).2)) ∧
    (∀ (d : Nat) (tl : List Nat), d = 56 ∨ d = 57 →
      unescape_local (92 :: d :: tl) =
        (0 :: d :: (unescape_local tl).1, (unescape_local tl).2)) := by
  constructor
  · intro ds b tl hne hds hb
    obtain ⟨d0, ds2, rfl⟩ := List.exists_cons_of_ne_nil hne
    have hd0 := hds d0 (by simp)
    have h92 : d0 ≠ 92 := by omega
    have h97 : d0 ≠ 97 := by omega
    have h114 : d0 ≠ 114 := by omega
    have h110 : d0 ≠ 110 := by omega
    have h09 : 48 ≤ d0 ∧ d0 ≤ 57 := by omega
    have htw : (ds2 ++ b :: tl).takeWhile isOctDigit = ds2 :=
      takeWhile_append_stop isOctDigit ds2 tl b
        (fun x hx => by
          simp only [isOctDigit, decide_eq_true_eq]
          exact hds x (by simp [hx]))
        (by simp [isOctDigit, hb])
    have hdrop : (ds2 ++ b :: tl).drop ds2.length = b :: tl :=
      List.drop_left ds2 (b :: tl)
    show unescape_local (92 :: d0 :: (ds2 ++ b :: tl)) = _
    rw [unescape_local]
    simp only [htw]
    rw [hdrop]
    simp [h92, h97, h114, h110, h09, hd0]
  · intro d tl hd
    have h0 : d ≠ 0 := by rcases hd with h | h <;> omega
    have h92 : d ≠ 92 := by rcases hd with h | h <;> omega
    have h97 : d ≠ 97 := by rcases hd with h | h <;> omega
    have h114 : d ≠ 114 := by rcases hd with h | h <;> omega
    have h110 : d ≠ 110 := by rcases hd with h | h <;> omega
    have h09 : 48 ≤ d ∧ d ≤ 57 := by rcases hd with h | h <;> omega
    have h55 : ¬ d ≤ 55 := by rcases hd with h | h <;> omega
    rw [unescape_local]
    simp [h92, h97, h114, h110, h09, h55, unescape_local_plain d tl h0 h92]

theorem unescape_octal_amended_witness :
    unescape_local (92 :: [49, 48, 49] ++ 0 :: []) =
      (min (octVal [49, 48, 49]) LONG_MAX % 256 :: (unescape_local (0 :: [])).1,
       (unescape_local (0 :: [])).2) ∧
    unescape_local (92 :: 56 :: [0]) =
      (0 :: 56 :: (unescape_local [0]).1, (unescape_local [0]).2) :=
  ⟨unescape_octal_amended.1 [49, 48, 49] 0 [] (by decide) (by decide) (by decide),
   unescape_octal_amended.2 56 [0] (Or.inl rfl)⟩

/-- Claim C9 is what the code should do; the code instead reads past the
terminating NUL: on an input ending in a lone backslash the loop consumes
the terminator as the escaped character, emits a NUL byte with a
diagnostic, and keeps reading the bytes after the terminator — here the
byte 0x51 placed after the NUL shows up in the output, so the decoding of
the same C string depends on the memory beyond its terminator. -/
theorem unescape_reads_past_nul :
    unescape_local [92, 0, 81, 0] = ([0, 81], 1) ∧
    unescape_local [92, 0, 0, 0] = ([0], 1) ∧
    unescape_local [92, 0, 81, 0] ≠ unescape_local [92, 0, 0, 0] := by
  have h1 : unescape_local [92, 0, 81, 0] = ([0, 81], 1) := by
    simp [unescape_local]
  have h2 : unescape_local [92, 0, 0, 0] = ([0], 1) := by
    simp [unescape_local]
  refine ⟨h1, h2, ?_⟩
  rw [h1, h2]
  decide

/-- Claim C10: in embedded-header mode a record of the form
HEADER 0x01 (empty target) first has its decoded header block appended to
the call object and only then gets skipped because the reduced target
length is zero, so that header rides on the request eventually produced
from the next non-empty record: the call ends up with the decoded header
of the skipped record, the empty and the real call_set_uri arguments in
order, and the following record as its target. -/
theorem set_uri_skipped_record_header_kept (doLoop : Bool) (h t : List Nat)
    (hh0 : (0 : Nat) ∉ h) (hh1 : (1 : Nat) ∉ h)
    (ht : t ≠ []) (ht0 : (0 : Nat) ∉ t) (ht1 : (1 : Nat) ∉ t) :
    set_uri doLoop true (h ++ 1 :: 0 :: t ++ [0]) 0 =
      some ⟨[[], t], [(unescape_local (h ++ [0])).1], t,
        h.length + t.length + 3, false⟩ := by
  have htpos : 0 < t.length := List.length_pos.mpr ht
  have hlen : (h ++ 1 :: 0 :: t ++ [0]).length = h.length + t.length + 3 := by
    simp
    omega
  have hp0 : 0 < (h ++ 1 :: 0 :: t ++ [0]).length := by omega
  have hd0 : (h ++ 1 :: 0 :: t ++ [0]).drop 0 = (h ++ [1]) ++ 0 :: (t ++ [0]) := by
    simp
  have hrec0 : recordAt (h ++ 1 :: 0 :: t ++ [0]) 0 = h ++ [1] :=
    recordAt_append hd0 (by simp [hh0])
  have hsplit1 : splitRecord true (h ++ [1]) = (some h, []) := by
    have hmem : (1 : Nat) ∈ h ++ [1] := by simp
    have htw : (h ++ [1]).takeWhile (fun b => decide (b ≠ 1)) = h := by
      have := takeWhile_append_stop (fun b => decide (b ≠ 1)) h [] 1
        (fun x hx => by
          simp only [decide_eq_true_eq]
          intro hx1
          exact hh1 (hx1 ▸ hx))
        (by simp)
      exact this
    have hdr : (h ++ [1]).drop (h.length + 1) = [] := by
      rw [show h.length + 1 = (h ++ [1]).length by simp]
      exact List.drop_length _
    unfold splitRecord
    rw [if_pos (⟨rfl, hmem⟩ : true = true ∧ (1 : Nat) ∈ h ++ [1]), htw, hdr]
  have hz1 : ((splitRecord true (recordAt (h ++ 1 :: 0 :: t ++ [0]) 0)).2).length = 0 := by
    rw [hrec0, hsplit1]
    rfl
  have hd1 : (h ++ 1 :: 0 :: t ++ [0]).drop (h.length + 2) = t ++ 0 :: [] := by
    have hsplit : h ++ 1 :: 0 :: t ++ [0] = (h ++ [1, 0]) ++ (t ++ [0]) := by simp
    rw [hsplit, show h.length + 2 = (h ++ [1, 0]).length by simp, List.drop_left]
  have hrec1 : recordAt (h ++ 1 :: 0 :: t ++ [0]) (h.length + 2) = t :=
    recordAt_append hd1 ht0
  have hsplit2 : splitRecord true t = (none, t) := by
    simp [splitRecord, ht1]
  have hp2 : h.length + 2 < (h ++ 1 :: 0 :: t ++ [0]).length := by omega
  have hz2 : ¬ ((splitRecord true (recordAt (h ++ 1 :: 0 :: t ++ [0]) (h.length + 2))).2).length = 0 := by
    rw [hrec1, hsplit2]
    simpa using ht
  have hscan : scanFrom true (h ++ 1 :: 0 :: t ++ [0]) [] [] 0 =
      ScanResult.found [[], t] [(unescape_local (h ++ [0])).1] t
        (h.length + 2 + t.length + 1) := by
    rw [scanFrom_step_skip hp0 hz1, hrec0, hsplit1]
    have hpos1 : 0 + (h ++ [1]).length + 1 = h.length + 2 := by simp
    rw [hpos1]
    show scanFrom true _ [[]] [(unescape_local (h ++ [0])).1] (h.length + 2) = _
    rw [scanFrom_step_found hp2 hz2, hrec1, hsplit2]
    rfl
  have hfin : set_uri doLoop true (h ++ 1 :: 0 :: t ++ [0]) 0 =
      some ⟨[[], t], [(unescape_local (h ++ [0])).1], t,
        h.length + 2 + t.length + 1, false⟩ := by
    unfold set_uri
    rw [if_pos hp0, hscan]
  rw [hfin]
  have : h.length + 2 + t.length + 1 = h.length + t.length + 3 := by omega
  rw [this]

theorem set_uri_skipped_record_header_kept_witness :
    set_uri false true ([72] ++ 1 :: 0 :: [84] ++ [0]) 0 =
      some ⟨[[], [84]], [(unescape_local ([72] ++ [0])).1], [84],
        [72].length + [84].length + 3, false⟩ :=
  set_uri_skipped_record_header_kept false [72] [84] (by decide) (by decide)
    (by decide) (by decide) (by decide)
